import Mathlib

/-!
# Verification of the Mini-Language lexical analyzer (`analyzer.py`)

Shallow embedding of the analyzer: the token catalog (`TOKEN_CODES`,
`RESERVED`), the scanner (`TOKEN_REGEX.findall` modelled by `scan`), the
recognition functions (`is_identifier`, `is_int_const`, `is_char_const`,
`is_string_const`), the classifier (`classify`), the symbol-table BST
(`STNode`, `SymbolTableBST.insert/find/inorder_list`) and the driver
(`lexical_analyze`).  Python strings are modelled as Lean `String`;
Python's string `<` (code-point lexicographic) is modelled by `lexLt`;
Python ints are `Int`.  `lexical_analyze` returns `Except String` to model
the `ValueError` raised on an invalid token, whose payload is exactly the
Python message `f"Invalid token: {t}"`.
-/

/-- Python's `\s` / `str.isspace` on the ASCII range: space, tab, newline,
carriage return, vertical tab, form feed. -/
def pyIsSpace (c : Char) : Bool :=
  c = ' ' || c = '\t' || c = '\n' || c = '\r' || c = '\x0b' || c = '\x0c'

/-- First character of the regex class `[A-Za-z_]`. -/
def isIdentStart (c : Char) : Bool := c.isAlpha || c = '_'

/-- Continuation characters of the regex class `[A-Za-z0-9_]`. -/
def isIdentChar (c : Char) : Bool := c.isAlphanum || c = '_'

/-- Python's `a < b` on strings: lexicographic comparison by code point,
a strict prefix compares less. -/
def lexLtL : List Char → List Char → Bool
  | [], [] => false
  | [], _ :: _ => true
  | _ :: _, [] => false
  | a :: as, b :: bs => if a < b then true else if b < a then false else lexLtL as bs

/-- Python's `<` on `str`, lifted to Lean `String`. -/
def lexLt (a b : String) : Bool := lexLtL a.toList b.toList

/-!
## 1. Atoms codification — `TOKEN_CODES`, `RESERVED`
-/

/-- The dictionary `TOKEN_CODES` of `analyzer.py`, as an association list in
source order. -/
def TOKEN_CODES : List (String × Int) :=
  [("identifier", 0), ("constant", 1), ("int", 2), ("char", 3), ("string", 4),
   ("bool", 5), ("const", 6), ("for", 7), ("while", 8), ("do", 9), ("if", 10),
   ("else", 11), ("cin", 12), ("cout", 13), ("return", 14), ("main", 15),
   (";", 16), (",", 17), (".", 18), ("+", 19), ("*", 20), ("(", 21), (")", 22),
   ("[", 23), ("]", 24), ("\x7b", 25), ("\x7d", 26), ("-", 27), ("<", 28), (">", 29),
   ("=", 30), ("==", 31), (":", 32), ("<=", 33), (">=", 34), ("!=", 35),
   ("&&", 36), ("||", 37)]

/-- `RESERVED = {k for k in TOKEN_CODES if k not in ["identifier", "constant"]}`. -/
def RESERVED : List String :=
  (TOKEN_CODES.map Prod.fst).filter (fun k => !(k == "identifier" || k == "constant"))

/-!
## 2/3. Scanner — `TOKEN_REGEX.findall`

`TOKEN_REGEX = \s+|==|!=|<=|>=|&&|\|\||[A-Za-z_][A-Za-z0-9_]*|[0-9]+|'[A-Za-z0-9]'|"[A-Za-z0-9]*"|.|\n`
with `re.findall`: at each position the alternatives are tried left to
right, each greedily (maximal run for `\s+`, identifiers, digits, string
bodies); `.` matches any non-newline character, and newlines are consumed
by `\s+`, so the regex always matches at least one character.
-/

/-- Alternatives `==|!=|<=|>=|&&|\|\|`: a two-character operator at the
current position, with the remaining input. -/
def twoOp (c : Char) (cs : List Char) : Option (String × List Char) :=
  match cs with
  | d :: rest =>
    if (c = '=' && d = '=') || (c = '!' && d = '=') || (c = '<' && d = '=') ||
       (c = '>' && d = '=') || (c = '&' && d = '&') || (c = '|' && d = '|') then
      some (String.mk [c, d], rest)
    else none
  | [] => none

/-- Alternative `'[A-Za-z0-9]'`: a character literal at the current position. -/
def charLit (c : Char) (cs : List Char) : Option (String × List Char) :=
  match c, cs with
  | '\'', a :: '\'' :: rest =>
    if a.isAlphanum then some (String.mk ['\'', a, '\''], rest) else none
  | _, _ => none

/-- Alternative `"[A-Za-z0-9]*"`: a string literal at the current position.
The greedy body run is maximal; since `"` is not alphanumeric, backtracking
cannot produce any other match. -/
def strLit (c : Char) (cs : List Char) : Option (String × List Char) :=
  if c = '"' then
    match cs.dropWhile Char.isAlphanum with
    | '"' :: rest => some (String.mk ('"' :: cs.takeWhile Char.isAlphanum ++ ['"']), rest)
    | _ => none
  else none

/-- One `TOKEN_REGEX` match starting at character `c` (rest of input `cs`):
the matched lexeme and the remaining input, alternatives in source order. -/
def nextTok (c : Char) (cs : List Char) : String × List Char :=
  if pyIsSpace c then
    (String.mk (c :: cs.takeWhile pyIsSpace), cs.dropWhile pyIsSpace)
  else
    match twoOp c cs with
    | some r => r
    | none =>
      if isIdentStart c then
        (String.mk (c :: cs.takeWhile isIdentChar), cs.dropWhile isIdentChar)
      else if c.isDigit then
        (String.mk (c :: cs.takeWhile Char.isDigit), cs.dropWhile Char.isDigit)
      else
        match charLit c cs with
        | some r => r
        | none =>
          match strLit c cs with
          | some r => r
          | none => (String.mk [c], cs)

/-- Repeated matching, `re.findall` style.  The fuel argument only bounds
the number of matches; since every match consumes at least one character,
`fuel = length of the input` never runs out (`scanGo_fuel_irrelevant`). -/
def scanGo : Nat → List Char → List String
  | 0, _ => []
  | _, [] => []
  | fuel + 1, c :: cs =>
    let p := nextTok c cs
    p.1 :: scanGo fuel p.2

/-- `TOKEN_REGEX.findall(source)` on the character list of the source. -/
def scan (cs : List Char) : List String := scanGo cs.length cs

/-!
## 3. Recognition functions
-/

/-- Fullmatch of the bare regex `[A-Za-z_][A-Za-z0-9_]*` (no reserved-word
exclusion). -/
def matchesIdent (t : String) : Bool :=
  match t.toList with
  | [] => false
  | c :: cs => isIdentStart c && cs.all isIdentChar

/-- `is_identifier`: fullmatch `[A-Za-z_][A-Za-z0-9_]*` and not reserved. -/
def is_identifier (t : String) : Bool := matchesIdent t && !RESERVED.contains t

/-- `is_int_const`: fullmatch `[0-9]+`. -/
def is_int_const (t : String) : Bool :=
  !t.toList.isEmpty && t.toList.all Char.isDigit

/-- `is_char_const`: fullmatch `'[A-Za-z0-9]'`. -/
def is_char_const (t : String) : Bool :=
  match t.toList with
  | ['\'', a, '\''] => a.isAlphanum
  | _ => false

/-- Body of a string literal after the opening quote: zero or more
alphanumerics followed by the closing `"` and nothing else. -/
def strBody : List Char → Bool
  | ['"'] => true
  | c :: rest => c.isAlphanum && strBody rest
  | [] => false

/-- `is_string_const`: fullmatch `"[A-Za-z0-9]*"`. -/
def is_string_const (t : String) : Bool :=
  match t.toList with
  | '"' :: rest => strBody rest
  | _ => false

/-!
## 4. Classification — `classify`
-/

/-- `classify` from `analyzer.py`.  `TOKEN_CODES["identifier"] = 0` and
`TOKEN_CODES["constant"] = 1` are written as literals; in the guarded
branches `TOKEN_CODES.lookup` always succeeds, so `getD (-1)` equals the
Python dictionary access.  The invalid case returns `(-1, token)`. -/
def classify (token : String) : Int × Option String :=
  if RESERVED.contains token then ((TOKEN_CODES.lookup token).getD (-1), none)
  else if is_identifier token then (0, some token)
  else if is_int_const token || is_char_const token || is_string_const token then
    (1, some token)
  else if (TOKEN_CODES.lookup token).isSome then
    ((TOKEN_CODES.lookup token).getD (-1), none)
  else (-1, some token)

/-!
## 5. BST implementation for the symbol table
-/

/-- A `SymbolTableBST` value: `nil` is an absent child / empty root, and a
node carries its key and two subtrees (the `STNode` class plus the
`Optional` links of `analyzer.py`). -/
inductive STNode where
  | nil : STNode
  | node (left : STNode) (key : String) (right : STNode) : STNode
deriving DecidableEq

namespace SymbolTableBST

/-- `SymbolTableBST.insert`: walk down by Python string comparison, return
the tree unchanged if the key is already present, else hang a new leaf. -/
def insert : STNode → String → STNode
  | .nil, key => .node .nil key .nil
  | .node l k r, key =>
    if key = k then .node l k r
    else if lexLt key k then .node (insert l key) k r
    else .node l k (insert r key)

/-- `SymbolTableBST.find` specialised to presence, i.e. `__contains__`:
the same comparison walk as `insert`. -/
def find : STNode → String → Bool
  | .nil, _ => false
  | .node l k r, key =>
    if key = k then true
    else if lexLt key k then find l key
    else find r key

/-- `SymbolTableBST.inorder_list`: keys in in-order traversal. -/
def inorder_list : STNode → List String
  | .nil => []
  | .node l k r => inorder_list l ++ k :: inorder_list r

end SymbolTableBST

/-!
## 6. Lexical analyzer — `lexical_analyze`
-/

/-- The non-whitespace raw lexemes of a source text:
`tokens = TOKEN_REGEX.findall(source)` followed by
`[t for t in tokens if not t.isspace()]`.  `str.isspace()` is true for a
non-empty all-whitespace string. -/
def pyTokens (source : String) : List String :=
  (scan source.toList).filter (fun t => !(!t.toList.isEmpty && t.toList.all pyIsSpace))

/-- The `for t in tokens` loop of `lexical_analyze`, carrying the symbol
table and the PIF built so far.  On an invalid token it raises
`ValueError(f"Invalid token: {t}")`.  For an identifier/constant it
conditionally inserts, then takes the index of the value in the CURRENT
in-order key list (`list.index` of a present element is `List.indexOf`). -/
def analyzeLoop : List String → STNode → List (Int × Int) →
    Except String (STNode × List (Int × Int))
  | [], st, pif => Except.ok (st, pif)
  | t :: ts, st, pif =>
    let code := (classify t).1
    if code = -1 then Except.error ("Invalid token: " ++ t)
    else
      match (classify t).2 with
      | some v =>
        let st' := if SymbolTableBST.find st v then st else SymbolTableBST.insert st v
        let index : Int := ((SymbolTableBST.inorder_list st').indexOf v : Nat)
        analyzeLoop ts st' (pif ++ [(code, index)])
      | none => analyzeLoop ts st (pif ++ [(code, -1)])

/-- `lexical_analyze(source)`: scan, drop whitespace, run the loop from an
empty table and empty PIF. -/
def lexical_analyze (source : String) : Except String (STNode × List (Int × Int)) :=
  analyzeLoop (pyTokens source) STNode.nil []

/-- The public `analyze` surface of the spec: the symbol table flattened to
its in-order key list, paired with the PIF. -/
def analyze (source : String) : Except String (List String × List (Int × Int)) :=
  match lexical_analyze source with
  | Except.ok (st, pif) => Except.ok (SymbolTableBST.inorder_list st, pif)
  | Except.error e => Except.error e

/-!
## Auxiliary predicates used to state the claims
-/

/-- All keys of the tree satisfy `p`. -/
def allKeysB (p : String → Bool) : STNode → Bool
  | .nil => true
  | .node l k r => p k && allKeysB p l && allKeysB p r

/-- The binary-search-tree invariant of the spec: at every node, the keys
of the left subtree compare less (Python string `<`) than the node's key
and the keys of the right subtree compare greater. -/
def isBST : STNode → Bool
  | .nil => true
  | .node l k r =>
    allKeysB (fun x => lexLt x k) l && allKeysB (fun x => lexLt k x) r &&
      isBST l && isBST r

/-- A raw lexeme that can never classify: it equals no catalog entry and
matches none of the identifier / integer / character-literal /
string-literal patterns. -/
def isInvalidTok (t : String) : Bool :=
  (TOKEN_CODES.lookup t).isNone && !matchesIdent t && !is_int_const t &&
    !is_char_const t && !is_string_const t

/-!
## Order lemmas for the Python string comparison `lexLt`
-/

theorem lexLtL_cons {a b : Char} {as bs : List Char} :
    lexLtL (a :: as) (b :: bs) = true ↔ a < b ∨ (a = b ∧ lexLtL as bs = true) := by
  by_cases h1 : a < b
  · simp [lexLtL, h1]
  · by_cases h2 : b < a
    · have hne : a ≠ b := ne_of_gt h2
      simp [lexLtL, h1, h2, hne]
    · have heq : a = b := le_antisymm (le_of_not_lt h2) (le_of_not_lt h1)
      simp [lexLtL, h1, h2, heq]

theorem lexLtL_irrefl : ∀ l : List Char, lexLtL l l = false
  | [] => rfl
  | a :: as => by simp [lexLtL, lt_irrefl, lexLtL_irrefl as]

theorem lexLtL_trans : ∀ as bs cs : List Char,
    lexLtL as bs = true → lexLtL bs cs = true → lexLtL as cs = true := by
  intro as
  induction as with
  | nil =>
    intro bs cs h1 h2
    cases cs with
    | nil =>
      cases bs with
      | nil => simp [lexLtL] at h1
      | cons b bs' => simp [lexLtL] at h2
    | cons c cs' => simp [lexLtL]
  | cons a as' ih =>
    intro bs cs h1 h2
    cases bs with
    | nil => simp [lexLtL] at h1
    | cons b bs' =>
      cases cs with
      | nil => simp [lexLtL] at h2
      | cons c cs' =>
        rcases lexLtL_cons.mp h1 with hab | ⟨hab, hrec1⟩ <;>
          rcases lexLtL_cons.mp h2 with hbc | ⟨hbc, hrec2⟩
        · exact lexLtL_cons.mpr (Or.inl (lt_trans hab hbc))
        · exact lexLtL_cons.mpr (Or.inl (hbc ▸ hab))
        · exact lexLtL_cons.mpr (Or.inl (hab ▸ hbc))
        · exact lexLtL_cons.mpr (Or.inr ⟨hab.trans hbc, ih bs' cs' hrec1 hrec2⟩)

theorem lexLtL_total : ∀ as bs : List Char,
    lexLtL as bs = true ∨ as = bs ∨ lexLtL bs as = true := by
  intro as
  induction as with
  | nil =>
    intro bs
    cases bs with
    | nil => exact Or.inr (Or.inl rfl)
    | cons b bs' => exact Or.inl (by simp [lexLtL])
  | cons a as' ih =>
    intro bs
    cases bs with
    | nil => exact Or.inr (Or.inr (by simp [lexLtL]))
    | cons b bs' =>
      by_cases hab : a < b
      · exact Or.inl (lexLtL_cons.mpr (Or.inl hab))
      · by_cases hba : b < a
        · exact Or.inr (Or.inr (lexLtL_cons.mpr (Or.inl hba)))
        · have heq : a = b := le_antisymm (le_of_not_lt hba) (le_of_not_lt hab)
          rcases ih bs' with h | h | h
          · exact Or.inl (lexLtL_cons.mpr (Or.inr ⟨heq, h⟩))
          · exact Or.inr (Or.inl (by rw [heq, h]))
          · exact Or.inr (Or.inr (lexLtL_cons.mpr (Or.inr ⟨heq.symm, h⟩)))

theorem toList_injective {s t : String} (h : s.toList = t.toList) : s = t := by
  cases s; cases t; exact congrArg String.mk h

theorem lexLt_trans {a b c : String} (h1 : lexLt a b = true) (h2 : lexLt b c = true) :
    lexLt a c = true :=
  lexLtL_trans _ _ _ h1 h2

theorem lexLt_ne {a b : String} (h : lexLt a b = true) : a ≠ b := by
  intro he
  rw [he, lexLt, lexLtL_irrefl] at h
  exact Bool.false_ne_true h

theorem lexLt_total {a b : String} (hne : a ≠ b) :
    lexLt a b = true ∨ lexLt b a = true := by
  rcases lexLtL_total a.toList b.toList with h | h | h
  · exact Or.inl h
  · exact absurd (toList_injective h) hne
  · exact Or.inr h

/-!
## Lemmas about the symbol-table BST
-/

namespace SymbolTableBST

theorem allKeysB_iff (p : String → Bool) :
    ∀ t : STNode, allKeysB p t = true ↔ ∀ k ∈ inorder_list t, p k = true := by
  intro t
  induction t with
  | nil => simp [allKeysB, inorder_list]
  | node l k r ihl ihr =>
    simp only [allKeysB, inorder_list, Bool.and_eq_true, ihl, ihr, List.mem_append,
      List.mem_cons]
    constructor
    · rintro ⟨⟨hk, hl⟩, hr⟩ x (hx | hx | hx)
      · exact hl x hx
      · exact hx ▸ hk
      · exact hr x hx
    · intro h
      exact ⟨⟨h k (Or.inr (Or.inl rfl)), fun x hx => h x (Or.inl hx)⟩,
        fun x hx => h x (Or.inr (Or.inr hx))⟩

theorem allKeysB_insert {p : String → Bool} :
    ∀ {t : STNode} {k : String}, allKeysB p t = true → p k = true →
      allKeysB p (insert t k) = true := by
  intro t
  induction t with
  | nil => intro k ht hk; simp [insert, allKeysB, hk]
  | node l k' r ihl ihr =>
    intro k ht hk
    simp only [allKeysB, Bool.and_eq_true] at ht
    obtain ⟨⟨hk', hl⟩, hr⟩ := ht
    by_cases he : k = k'
    · simp [insert, he, allKeysB, hk', hl, hr]
    · by_cases hlt : lexLt k k'
      · simp [insert, he, hlt, allKeysB, hk', hr, ihl hl hk]
      · simp [insert, he, hlt, allKeysB, hk', hl, ihr hr hk]

theorem isBST_insert : ∀ {t : STNode} {k : String}, isBST t = true →
    isBST (insert t k) = true := by
  intro t
  induction t with
  | nil => intro k _; simp [insert, isBST, allKeysB]
  | node l k' r ihl ihr =>
    intro k ht
    simp only [isBST, Bool.and_eq_true] at ht
    obtain ⟨⟨⟨hal, har⟩, hbl⟩, hbr⟩ := ht
    by_cases he : k = k'
    · simp [insert, he, isBST, hal, har, hbl, hbr]
    · by_cases hlt : lexLt k k'
      · simp [insert, he, hlt, isBST, har, hbr, ihl hbl, allKeysB_insert hal hlt]
      · have hgt : lexLt k' k = true := by
          rcases lexLt_total he with h | h
          · exact absurd h hlt
          · exact h
        simp [insert, he, hlt, isBST, hal, hbl, ihr hbr, allKeysB_insert har hgt]

theorem isBST_pairwise : ∀ {t : STNode}, isBST t = true →
    (inorder_list t).Pairwise (fun a b => lexLt a b = true) := by
  intro t
  induction t with
  | nil => simp [inorder_list]
  | node l k r ihl ihr =>
    intro ht
    simp only [isBST, Bool.and_eq_true] at ht
    obtain ⟨⟨⟨hal, har⟩, hbl⟩, hbr⟩ := ht
    rw [inorder_list, List.pairwise_append]
    refine ⟨ihl hbl, List.pairwise_cons.mpr ⟨fun b hb => (allKeysB_iff _ r).mp har b hb, ihr hbr⟩,
      fun a ha b hb => ?_⟩
    have hak : lexLt a k = true := (allKeysB_iff _ l).mp hal a ha
    rcases List.mem_cons.mp hb with rfl | hb
    · exact hak
    · exact lexLt_trans hak ((allKeysB_iff _ r).mp har b hb)

theorem nodup_of_pairwise {l : List String}
    (h : l.Pairwise (fun a b => lexLt a b = true)) : l.Nodup :=
  h.imp (fun hab => lexLt_ne hab)

theorem find_insert_self : ∀ (t : STNode) (k : String), find (insert t k) k = true := by
  intro t
  induction t with
  | nil => intro k; simp [insert, find]
  | node l k' r ihl ihr =>
    intro k
    by_cases he : k = k'
    · simp [insert, he, find]
    · by_cases hlt : lexLt k k'
      · simp [insert, he, hlt, find, ihl]
      · simp [insert, he, hlt, find, ihr]

theorem find_insert_mono : ∀ (t : STNode) (k k' : String),
    find t k = true → find (insert t k') k = true := by
  intro t
  induction t with
  | nil => intro k k' h; simp [find] at h
  | node l a r ihl ihr =>
    intro k k' h
    by_cases he' : k' = a
    · simpa [insert, he'] using h
    · by_cases hlt' : lexLt k' a
      · by_cases he : k = a
        · simp [insert, he', hlt', find, he]
        · by_cases hlt : lexLt k a
          · simp [find, he, hlt] at h
            simp [insert, he', hlt', find, he, hlt, ihl k k' h]
          · simp [find, he, hlt] at h
            simp [insert, he', hlt', find, he, hlt, h]
      · by_cases he : k = a
        · simp [insert, he', hlt', find, he]
        · by_cases hlt : lexLt k a
          · simp [find, he, hlt] at h
            simp [insert, he', hlt', find, he, hlt, h]
          · simp [find, he, hlt] at h
            simp [insert, he', hlt', find, he, hlt, ihr k k' h]

theorem insert_of_find : ∀ (t : STNode) (k : String),
    find t k = true → insert t k = t := by
  intro t
  induction t with
  | nil => intro k h; simp [find] at h
  | node l a r ihl ihr =>
    intro k h
    by_cases he : k = a
    · simp [insert, he]
    · by_cases hlt : lexLt k a
      · simp [find, he, hlt] at h
        simp [insert, he, hlt, ihl k h]
      · simp [find, he, hlt] at h
        simp [insert, he, hlt, ihr k h]

theorem mem_inorder_of_find : ∀ (t : STNode) (k : String),
    find t k = true → k ∈ inorder_list t := by
  intro t
  induction t with
  | nil => intro k h; simp [find] at h
  | node l a r ihl ihr =>
    intro k h
    by_cases he : k = a
    · simp [inorder_list, he]
    · by_cases hlt : lexLt k a
      · simp [find, he, hlt] at h
        simp [inorder_list, ihl k h]
      · simp [find, he, hlt] at h
        simp [inorder_list, ihr k h]

theorem length_inorder_insert : ∀ (t : STNode) (k : String),
    (inorder_list t).length ≤ (inorder_list (insert t k)).length := by
  intro t
  induction t with
  | nil => intro k; simp [insert, inorder_list]
  | node l a r ihl ihr =>
    intro k
    by_cases he : k = a
    · simp [insert, he]
    · by_cases hlt : lexLt k a
      · simp only [insert, he, if_false, hlt, if_true, inorder_list, List.length_append]
        have := ihl k
        simp only [List.length_cons]
        omega
      · simp only [insert, he, if_false, hlt, if_true, inorder_list, List.length_append]
        have := ihr k
        simp only [List.length_cons]
        omega

end SymbolTableBST

/-!
## Lemmas about the token catalog and `classify`
-/

theorem lookup_mem {l : List (String × Int)} {t : String} {v : Int}
    (h : l.lookup t = some v) : (t, v) ∈ l := by
  induction l with
  | nil => simp [List.lookup] at h
  | cons p ps ih =>
    obtain ⟨k, w⟩ := p
    simp only [List.lookup] at h
    cases hk : t == k with
    | true =>
      rw [hk] at h
      obtain rfl := eq_of_beq hk
      obtain rfl : w = v := by simpa using h
      exact List.mem_cons_self _ _
    | false =>
      rw [hk] at h
      exact List.mem_cons_of_mem _ (ih h)

theorem lookup_isSome_of_mem_keys {l : List (String × Int)} {t : String}
    (h : t ∈ l.map Prod.fst) : (l.lookup t).isSome = true := by
  induction l with
  | nil => simp at h
  | cons p ps ih =>
    obtain ⟨k, w⟩ := p
    simp only [List.map_cons, List.mem_cons] at h
    simp only [List.lookup]
    cases hk : t == k with
    | true => simp
    | false =>
      rcases h with h | h
      · exact absurd (beq_iff_eq.mpr h) (by simp [hk])
      · simpa using ih h

theorem bool_eq_false {b : Bool} (h : ¬b = true) : b = false := by
  cases b
  · rfl
  · exact absurd rfl h

theorem token_codes_nonneg : ∀ p ∈ TOKEN_CODES, 0 ≤ p.2 := by decide

theorem token_codes_reserved_ge2 :
    ∀ p ∈ TOKEN_CODES, p.1 = "identifier" ∨ p.1 = "constant" ∨ 2 ≤ p.2 := by decide

theorem mem_reserved_iff {t : String} :
    t ∈ RESERVED ↔ t ∈ TOKEN_CODES.map Prod.fst ∧ t ≠ "identifier" ∧ t ≠ "constant" := by
  simp only [RESERVED, List.mem_filter, Bool.not_eq_true', Bool.or_eq_false_iff,
    beq_eq_false_iff_ne, ne_eq]

/-- A reserved word's code, read back through `lookup`, is at least 2. -/
theorem reserved_lookup_ge2 {t : String} (h : t ∈ RESERVED) :
    ∃ v : Int, TOKEN_CODES.lookup t = some v ∧ 2 ≤ v := by
  obtain ⟨hk, hid, hco⟩ := mem_reserved_iff.mp h
  obtain ⟨v, hv⟩ := Option.isSome_iff_exists.mp (lookup_isSome_of_mem_keys hk)
  refine ⟨v, hv, ?_⟩
  rcases token_codes_reserved_ge2 _ (lookup_mem hv) with h2 | h2 | h2
  · exact absurd h2 hid
  · exact absurd h2 hco
  · exact h2

theorem lookup_nonneg {t : String} {v : Int} (h : TOKEN_CODES.lookup t = some v) :
    0 ≤ v :=
  token_codes_nonneg _ (lookup_mem h)

/-- `classify` with the membership test written as a `List.Mem`
proposition (Python `token in RESERVED`). -/
theorem classify_eq (t : String) : classify t =
    if t ∈ RESERVED then ((TOKEN_CODES.lookup t).getD (-1), none)
    else if is_identifier t = true then (0, some t)
    else if (is_int_const t || is_char_const t || is_string_const t) = true then
      (1, some t)
    else if (TOKEN_CODES.lookup t).isSome = true then
      ((TOKEN_CODES.lookup t).getD (-1), none)
    else (-1, some t) := by
  by_cases hmem : t ∈ RESERVED
  · have hc : RESERVED.contains t = true := by simpa using hmem
    simp only [classify]
    rw [if_pos hc, if_pos hmem]
  · have hc : ¬(RESERVED.contains t = true) := by simpa using hmem
    simp only [classify]
    rw [if_neg hc, if_neg hmem]

/-- If `classify` returns no symbol value, the code is at least 2. -/
theorem classify_none_code {t : String} (h : (classify t).2 = none) :
    2 ≤ (classify t).1 := by
  rw [classify_eq] at h ⊢
  by_cases hmem : t ∈ RESERVED
  · obtain ⟨v, hv, h2⟩ := reserved_lookup_ge2 hmem
    rw [if_pos hmem] at h ⊢
    simp [hv]
    omega
  · rw [if_neg hmem] at h ⊢
    by_cases hid : is_identifier t = true
    · rw [if_pos hid] at h; simp at h
    · rw [if_neg hid] at h ⊢
      by_cases hconst : (is_int_const t || is_char_const t || is_string_const t) = true
      · rw [if_pos hconst] at h; simp at h
      · rw [if_neg hconst] at h ⊢
        by_cases hkey : (TOKEN_CODES.lookup t).isSome = true
        · obtain ⟨v, hv⟩ := Option.isSome_iff_exists.mp hkey
          have hkeys : t ∈ TOKEN_CODES.map Prod.fst :=
            List.mem_map_of_mem Prod.fst (lookup_mem hv)
          have : t = "identifier" ∨ t = "constant" := by
            by_contra hne
            push_neg at hne
            exact hmem (mem_reserved_iff.mpr ⟨hkeys, hne.1, hne.2⟩)
          rcases this with rfl | rfl
          · exact absurd (by decide : is_identifier "identifier" = true) hid
          · exact absurd (by decide : is_identifier "constant" = true) hid
        · rw [if_neg hkey] at h; simp at h

/-- If `classify` returns a symbol value, the value is the token itself and
the code is 0 (identifier), 1 (constant) or -1 (invalid). -/
theorem classify_some_code {t v : String} (h : (classify t).2 = some v) :
    v = t ∧ ((classify t).1 = 0 ∨ (classify t).1 = 1 ∨ (classify t).1 = -1) := by
  rw [classify_eq] at h ⊢
  by_cases hmem : t ∈ RESERVED
  · rw [if_pos hmem] at h; simp at h
  · rw [if_neg hmem] at h ⊢
    by_cases hid : is_identifier t = true
    · rw [if_pos hid] at h ⊢
      simp at h
      exact ⟨h.symm, Or.inl rfl⟩
    · rw [if_neg hid] at h ⊢
      by_cases hconst : (is_int_const t || is_char_const t || is_string_const t) = true
      · rw [if_pos hconst] at h ⊢
        simp at h
        exact ⟨h.symm, Or.inr (Or.inl rfl)⟩
      · rw [if_neg hconst] at h ⊢
        by_cases hkey : (TOKEN_CODES.lookup t).isSome = true
        · rw [if_pos hkey] at h; simp at h
        · rw [if_neg hkey] at h ⊢
          simp at h
          exact ⟨h.symm, Or.inr (Or.inr rfl)⟩

/-- `classify` marks a token invalid exactly when it equals no catalog
entry and matches none of the four lexical patterns. -/
theorem classify_neg1_iff {t : String} :
    (classify t).1 = -1 ↔ isInvalidTok t = true := by
  rw [classify_eq]
  by_cases hmem : t ∈ RESERVED
  · obtain ⟨v, hv, h2⟩ := reserved_lookup_ge2 hmem
    rw [if_pos hmem]
    simp [isInvalidTok, hv]
    omega
  · rw [if_neg hmem]
    by_cases hid : is_identifier t = true
    · have hmatch : matchesIdent t = true := by
        simp only [is_identifier, Bool.and_eq_true] at hid
        exact hid.1
      rw [if_pos hid]
      simp [isInvalidTok, hmatch]
    · rw [if_neg hid]
      by_cases hconst : (is_int_const t || is_char_const t || is_string_const t) = true
      · rw [if_pos hconst]
        simp only [Bool.or_eq_true] at hconst
        rcases hconst with (h | h) | h <;> simp [isInvalidTok, h]
      · rw [if_neg hconst]
        by_cases hkey : (TOKEN_CODES.lookup t).isSome = true
        · obtain ⟨v, hv⟩ := Option.isSome_iff_exists.mp hkey
          have h0 := lookup_nonneg hv
          rw [if_pos hkey]
          simp [isInvalidTok, hv]
          omega
        · rw [if_neg hkey]
          have hnone : (TOKEN_CODES.lookup t).isNone = true := by
            rw [Option.isNone_iff_eq_none]
            exact Option.not_isSome_iff_eq_none.mp hkey
          have hnres : RESERVED.contains t = false := bool_eq_false (by simpa using hmem)
          have hmatch : matchesIdent t = false :=
            bool_eq_false (fun hmt => hid (by simp [is_identifier, hmt, hnres, hmem]))
          have hconst' : (is_int_const t || is_char_const t || is_string_const t) = false :=
            bool_eq_false hconst
          simp only [Bool.or_eq_false_iff] at hconst'
          obtain ⟨⟨h1, h2⟩, h3⟩ := hconst'
          simp [isInvalidTok, hnone, hmatch, h1, h2, h3]

/-!
## Lemmas about the analysis loop
-/

open SymbolTableBST in
theorem stStep_eq_insert (st : STNode) (v : String) :
    (if find st v = true then st else insert st v) = insert st v := by
  by_cases h : find st v = true
  · rw [if_pos h, insert_of_find _ _ h]
  · rw [if_neg h]

theorem analyzeLoop_cons_err {t : String} {ts : List String} {st : STNode}
    {pif : List (Int × Int)} (h : (classify t).1 = -1) :
    analyzeLoop (t :: ts) st pif = Except.error ("Invalid token: " ++ t) := by
  simp only [analyzeLoop]
  rw [if_pos h]

theorem analyzeLoop_cons_none {t : String} {ts : List String} {st : STNode}
    {pif : List (Int × Int)} (hne : ¬(classify t).1 = -1)
    (hv : (classify t).2 = none) :
    analyzeLoop (t :: ts) st pif = analyzeLoop ts st (pif ++ [((classify t).1, -1)]) := by
  simp only [analyzeLoop, hv]
  rw [if_neg hne]

theorem analyzeLoop_cons_some {t v : String} {ts : List String} {st : STNode}
    {pif : List (Int × Int)} (hne : ¬(classify t).1 = -1)
    (hv : (classify t).2 = some v) :
    analyzeLoop (t :: ts) st pif =
      analyzeLoop ts (SymbolTableBST.insert st v)
        (pif ++ [((classify t).1,
          (((SymbolTableBST.inorder_list (SymbolTableBST.insert st v)).indexOf v : Nat) : Int))]) := by
  simp only [analyzeLoop, hv]
  rw [if_neg hne, stStep_eq_insert]

theorem analyzeLoop_length : ∀ (ts : List String) (st : STNode)
    (pif : List (Int × Int)) (st' : STNode) (pif' : List (Int × Int)),
    analyzeLoop ts st pif = Except.ok (st', pif') →
    pif'.length = pif.length + ts.length := by
  intro ts
  induction ts with
  | nil =>
    intro st pif st' pif' h
    simp only [analyzeLoop] at h
    obtain ⟨rfl, rfl⟩ : st = st' ∧ pif = pif' := by
      constructor <;> [skip; skip] <;> injection h with h' <;>
        [exact congrArg Prod.fst h'; exact congrArg Prod.snd h']
    simp
  | cons t ts ih =>
    intro st pif st' pif' h
    by_cases hc : (classify t).1 = -1
    · rw [analyzeLoop_cons_err hc] at h
      exact absurd h (by simp)
    · cases hv : (classify t).2 with
      | none =>
        rw [analyzeLoop_cons_none hc hv] at h
        have := ih _ _ _ _ h
        simp only [List.length_append, List.length_cons, List.length_nil,
          List.length_cons] at this ⊢
        omega
      | some v =>
        rw [analyzeLoop_cons_some hc hv] at h
        have := ih _ _ _ _ h
        simp only [List.length_append, List.length_cons, List.length_nil,
          List.length_cons] at this ⊢
        omega

theorem analyzeLoop_error_of_find : ∀ (ts : List String) (st : STNode)
    (pif : List (Int × Int)) (t : String),
    ts.find? isInvalidTok = some t →
    analyzeLoop ts st pif = Except.error ("Invalid token: " ++ t) := by
  intro ts
  induction ts with
  | nil => intro st pif t h; simp [List.find?] at h
  | cons hd ts ih =>
    intro st pif t h
    by_cases hinv : isInvalidTok hd = true
    · simp only [List.find?, hinv] at h
      obtain rfl : hd = t := by injection h
      exact analyzeLoop_cons_err (classify_neg1_iff.mpr hinv)
    · have hinv' : isInvalidTok hd = false := bool_eq_false hinv
      simp only [List.find?, hinv'] at h
      have hne : ¬(classify hd).1 = -1 := fun hc => hinv (classify_neg1_iff.mp hc)
      cases hv : (classify hd).2 with
      | none => rw [analyzeLoop_cons_none hne hv]; exact ih _ _ _ h
      | some v => rw [analyzeLoop_cons_some hne hv]; exact ih _ _ _ h

theorem analyzeLoop_ok_of_none : ∀ (ts : List String) (st : STNode)
    (pif : List (Int × Int)),
    ts.find? isInvalidTok = none →
    ∃ r, analyzeLoop ts st pif = Except.ok r := by
  intro ts
  induction ts with
  | nil => intro st pif _; exact ⟨(st, pif), rfl⟩
  | cons hd ts ih =>
    intro st pif h
    have hinv : isInvalidTok hd = false := by
      cases hf : isInvalidTok hd with
      | false => rfl
      | true => simp [List.find?, hf] at h
    simp only [List.find?, hinv] at h
    have hne : ¬(classify hd).1 = -1 := fun hc => by
      rw [classify_neg1_iff.mp hc] at hinv
      simp at hinv
    cases hv : (classify hd).2 with
    | none => rw [analyzeLoop_cons_none hne hv]; exact ih _ _ h
    | some v => rw [analyzeLoop_cons_some hne hv]; exact ih _ _ h

theorem analyzeLoop_isBST : ∀ (ts : List String) (st : STNode)
    (pif : List (Int × Int)) (st' : STNode) (pif' : List (Int × Int)),
    analyzeLoop ts st pif = Except.ok (st', pif') →
    isBST st = true → isBST st' = true := by
  intro ts
  induction ts with
  | nil =>
    intro st pif st' pif' h hb
    simp only [analyzeLoop] at h
    obtain rfl : st = st' := by injection h with h'; exact congrArg Prod.fst h'
    exact hb
  | cons t ts ih =>
    intro st pif st' pif' h hb
    by_cases hc : (classify t).1 = -1
    · rw [analyzeLoop_cons_err hc] at h
      exact absurd h (by simp)
    · cases hv : (classify t).2 with
      | none =>
        rw [analyzeLoop_cons_none hc hv] at h
        exact ih _ _ _ _ h hb
      | some v =>
        rw [analyzeLoop_cons_some hc hv] at h
        exact ih _ _ _ _ h (SymbolTableBST.isBST_insert hb)

theorem analyzeLoop_find_mono : ∀ (ts : List String) (st : STNode)
    (pif : List (Int × Int)) (st' : STNode) (pif' : List (Int × Int)) (k : String),
    analyzeLoop ts st pif = Except.ok (st', pif') →
    SymbolTableBST.find st k = true → SymbolTableBST.find st' k = true := by
  intro ts
  induction ts with
  | nil =>
    intro st pif st' pif' k h hf
    simp only [analyzeLoop] at h
    obtain rfl : st = st' := by injection h with h'; exact congrArg Prod.fst h'
    exact hf
  | cons t ts ih =>
    intro st pif st' pif' k h hf
    by_cases hc : (classify t).1 = -1
    · rw [analyzeLoop_cons_err hc] at h
      exact absurd h (by simp)
    · cases hv : (classify t).2 with
      | none =>
        rw [analyzeLoop_cons_none hc hv] at h
        exact ih _ _ _ _ _ h hf
      | some v =>
        rw [analyzeLoop_cons_some hc hv] at h
        exact ih _ _ _ _ _ h (SymbolTableBST.find_insert_mono _ _ _ hf)

theorem analyzeLoop_inserted : ∀ (ts : List String) (st : STNode)
    (pif : List (Int × Int)) (st' : STNode) (pif' : List (Int × Int)),
    analyzeLoop ts st pif = Except.ok (st', pif') →
    ∀ t ∈ ts, ∀ v : String, (classify t).2 = some v →
    SymbolTableBST.find st' v = true := by
  intro ts
  induction ts with
  | nil => intro st pif st' pif' _ t ht; simp at ht
  | cons hd ts ih =>
    intro st pif st' pif' h t ht v hcv
    by_cases hc : (classify hd).1 = -1
    · rw [analyzeLoop_cons_err hc] at h
      exact absurd h (by simp)
    · rcases List.mem_cons.mp ht with rfl | ht'
      · cases hv : (classify t).2 with
        | none => rw [hv] at hcv; exact absurd hcv (by simp)
        | some w =>
          obtain rfl : w = v := by rw [hv] at hcv; injection hcv
          rw [analyzeLoop_cons_some hc hv] at h
          exact analyzeLoop_find_mono _ _ _ _ _ _ h
            (SymbolTableBST.find_insert_self _ _)
      · cases hv : (classify hd).2 with
        | none =>
          rw [analyzeLoop_cons_none hc hv] at h
          exact ih _ _ _ _ h t ht' v hcv
        | some w =>
          rw [analyzeLoop_cons_some hc hv] at h
          exact ih _ _ _ _ h t ht' v hcv

theorem analyzeLoop_inorder_mono : ∀ (ts : List String) (st : STNode)
    (pif : List (Int × Int)) (st' : STNode) (pif' : List (Int × Int)),
    analyzeLoop ts st pif = Except.ok (st', pif') →
    (SymbolTableBST.inorder_list st).length ≤ (SymbolTableBST.inorder_list st').length := by
  intro ts
  induction ts with
  | nil =>
    intro st pif st' pif' h
    simp only [analyzeLoop] at h
    obtain rfl : st = st' := by injection h with h'; exact congrArg Prod.fst h'
    exact le_refl _
  | cons t ts ih =>
    intro st pif st' pif' h
    by_cases hc : (classify t).1 = -1
    · rw [analyzeLoop_cons_err hc] at h
      exact absurd h (by simp)
    · cases hv : (classify t).2 with
      | none =>
        rw [analyzeLoop_cons_none hc hv] at h
        exact ih _ _ _ _ h
      | some v =>
        rw [analyzeLoop_cons_some hc hv] at h
        exact le_trans (SymbolTableBST.length_inorder_insert _ _) (ih _ _ _ _ h)

theorem analyzeLoop_entries : ∀ (ts : List String) (st : STNode)
    (pif : List (Int × Int)) (st' : STNode) (pif' : List (Int × Int)),
    analyzeLoop ts st pif = Except.ok (st', pif') →
    (∀ e ∈ pif, ((e.1 = 0 ∨ e.1 = 1) →
        0 ≤ e.2 ∧ e.2 < ((SymbolTableBST.inorder_list st).length : Int)) ∧
      (¬(e.1 = 0 ∨ e.1 = 1) → e.2 = -1)) →
    ∀ e ∈ pif', ((e.1 = 0 ∨ e.1 = 1) →
        0 ≤ e.2 ∧ e.2 < ((SymbolTableBST.inorder_list st').length : Int)) ∧
      (¬(e.1 = 0 ∨ e.1 = 1) → e.2 = -1) := by
  intro ts
  induction ts with
  | nil =>
    intro st pif st' pif' h hacc
    simp only [analyzeLoop] at h
    obtain ⟨rfl, rfl⟩ : st = st' ∧ pif = pif' := by
      constructor <;> injection h with h' <;>
        [exact congrArg Prod.fst h'; exact congrArg Prod.snd h']
    exact hacc
  | cons t ts ih =>
    intro st pif st' pif' h hacc
    by_cases hc : (classify t).1 = -1
    · rw [analyzeLoop_cons_err hc] at h
      exact absurd h (by simp)
    · cases hv : (classify t).2 with
      | none =>
        rw [analyzeLoop_cons_none hc hv] at h
        refine ih _ _ _ _ h ?_
        intro e he
        rcases List.mem_append.mp he with he' | he'
        · exact hacc e he'
        · obtain rfl : e = ((classify t).1, (-1 : Int)) := by simpa using he'
          have h2 := classify_none_code hv
          constructor
          · intro h01
            rcases h01 with h0 | h0 <;> simp only at h0 <;> omega
          · intro _; rfl
      | some v =>
        rw [analyzeLoop_cons_some hc hv] at h
        refine ih _ _ _ _ h ?_
        intro e he
        rcases List.mem_append.mp he with he' | he'
        · have hold := hacc e he'
          have hlen := SymbolTableBST.length_inorder_insert st v
          constructor
          · intro h01
            obtain ⟨hl, hr⟩ := hold.1 h01
            constructor
            · exact hl
            · have : ((SymbolTableBST.inorder_list st).length : Int) ≤
                  ((SymbolTableBST.inorder_list (SymbolTableBST.insert st v)).length : Int) := by
                exact_mod_cast hlen
              omega
          · exact hold.2
        · obtain rfl : e = ((classify t).1,
              (((SymbolTableBST.inorder_list (SymbolTableBST.insert st v)).indexOf v : Nat) : Int)) := by
            simpa using he'
          obtain ⟨-, hcode⟩ := classify_some_code hv
          have hmem : v ∈ SymbolTableBST.inorder_list (SymbolTableBST.insert st v) :=
            SymbolTableBST.mem_inorder_of_find _ _ (SymbolTableBST.find_insert_self st v)
          have hidx : (SymbolTableBST.inorder_list (SymbolTableBST.insert st v)).indexOf v <
              (SymbolTableBST.inorder_list (SymbolTableBST.insert st v)).length :=
            List.indexOf_lt_length.mpr hmem
          constructor
          · intro _
            refine ⟨Int.ofNat_nonneg _, ?_⟩
            show (((SymbolTableBST.inorder_list (SymbolTableBST.insert st v)).indexOf v : Nat) : Int) <
              ((SymbolTableBST.inorder_list (SymbolTableBST.insert st v)).length : Int)
            exact_mod_cast hidx
          · intro hno
            rcases hcode with h0 | h0 | h0
            · exact absurd (Or.inl h0) hno
            · exact absurd (Or.inr h0) hno
            · exact absurd h0 hc

/-!
## Scanner lemmas: fuel adequacy and whitespace behaviour
-/

theorem length_dropWhile_le (p : Char → Bool) :
    ∀ l : List Char, (l.dropWhile p).length ≤ l.length := by
  intro l
  induction l with
  | nil => simp [List.dropWhile]
  | cons a l ih =>
    cases h : p a with
    | true => simp only [List.dropWhile, h, List.length_cons]; omega
    | false => simp [List.dropWhile, h]

theorem twoOp_len {c : Char} {cs : List Char} {r : String × List Char}
    (h : twoOp c cs = some r) : r.2.length ≤ cs.length := by
  cases cs with
  | nil => simp [twoOp] at h
  | cons d rest =>
    simp only [twoOp] at h
    by_cases hcond : ((c = '=' && d = '=') || (c = '!' && d = '=') || (c = '<' && d = '=') ||
        (c = '>' && d = '=') || (c = '&' && d = '&') || (c = '|' && d = '|')) = true
    · rw [if_pos hcond] at h
      obtain rfl : (String.mk [c, d], rest) = r := by injection h
      simp
    · rw [if_neg hcond] at h
      exact absurd h (by simp)

theorem charLit_len {c : Char} {cs : List Char} {r : String × List Char}
    (h : charLit c cs = some r) : r.2.length ≤ cs.length := by
  unfold charLit at h
  split at h
  · rename_i a rest
    split at h
    · obtain rfl : (String.mk ['\'', a, '\''], rest) = r := by injection h
      simp
      omega
    · exact absurd h (by simp)
  · exact absurd h (by simp)

theorem strLit_len {c : Char} {cs : List Char} {r : String × List Char}
    (h : strLit c cs = some r) : r.2.length ≤ cs.length := by
  unfold strLit at h
  split at h
  · split at h
    · rename_i rest heq
      obtain rfl : (String.mk ('"' :: cs.takeWhile Char.isAlphanum ++ ['"']), rest) = r := by
        injection h
      have h1 : rest.length < (cs.dropWhile Char.isAlphanum).length := by
        rw [heq]; simp
      have h2 := length_dropWhile_le Char.isAlphanum cs
      simp only
      omega
    · exact absurd h (by simp)
  · exact absurd h (by simp)

theorem nextTok_len (c : Char) (cs : List Char) : (nextTok c cs).2.length ≤ cs.length := by
  unfold nextTok
  by_cases hsp : pyIsSpace c = true
  · simp only [hsp, if_true]
    exact length_dropWhile_le _ _
  · simp only [hsp, if_false, Bool.false_eq_true]
    cases h2 : twoOp c cs with
    | some r => exact twoOp_len h2
    | none =>
      by_cases hid : isIdentStart c = true
      · simp only [hid, if_true]
        exact length_dropWhile_le _ _
      · simp only [hid, if_false, Bool.false_eq_true]
        by_cases hdig : c.isDigit = true
        · simp only [hdig, if_true]
          exact length_dropWhile_le _ _
        · simp only [hdig, if_false, Bool.false_eq_true]
          cases h3 : charLit c cs with
          | some r => exact charLit_len h3
          | none =>
            cases h4 : strLit c cs with
            | some r => exact strLit_len h4
            | none => exact le_refl _

/-- Any fuel at least the length of the input scans it completely: the
fuel in `scan` is an artifact, not a semantic bound. -/
theorem scanGo_fuel_irrelevant : ∀ (fuel fuel' : Nat) (cs : List Char),
    cs.length ≤ fuel → cs.length ≤ fuel' → scanGo fuel cs = scanGo fuel' cs := by
  intro fuel
  induction fuel with
  | zero =>
    intro fuel' cs h h'
    obtain rfl : cs = [] := List.length_eq_zero.mp (Nat.le_zero.mp h)
    cases fuel' <;> rfl
  | succ fuel ih =>
    intro fuel' cs h h'
    cases cs with
    | nil => cases fuel' <;> rfl
    | cons c rest =>
      cases fuel' with
      | zero => simp at h'
      | succ fuel'' =>
        simp only [scanGo]
        have hlen : (nextTok c rest).2.length ≤ rest.length := nextTok_len c rest
        simp only [List.length_cons] at h h'
        rw [ih fuel'' (nextTok c rest).2 (by omega) (by omega)]

theorem scanGo_nil : ∀ fuel : Nat, scanGo fuel [] = [] := by
  intro fuel
  cases fuel <;> rfl

/-- Scanning an all-whitespace text yields tokens that the whitespace
filter removes entirely. -/
theorem pyTokens_all_space {s : String} (hs : ∀ c ∈ s.toList, pyIsSpace c = true) :
    pyTokens s = [] := by
  unfold pyTokens scan
  cases hcs : s.toList with
  | nil => rfl
  | cons c rest =>
    have hc : pyIsSpace c = true := hs c (by rw [hcs]; exact List.mem_cons_self _ _)
    have hrest : ∀ x ∈ rest, pyIsSpace x = true := fun x hx =>
      hs x (by rw [hcs]; exact List.mem_cons_of_mem _ hx)
    have htake : rest.takeWhile pyIsSpace = rest := List.takeWhile_eq_self_iff.mpr hrest
    have hdrop : rest.dropWhile pyIsSpace = [] := List.dropWhile_eq_nil_iff.mpr hrest
    simp only [List.length_cons, scanGo, nextTok, hc, if_true, htake, hdrop, scanGo_nil]
    simp only [List.filter]
    have hall : (c :: rest).all pyIsSpace = true := by
      simp only [List.all_cons, hc, Bool.true_and]
      exact List.all_eq_true.mpr hrest
    simp [hall]

theorem foldl_insert_isBST : ∀ (ks : List String) (st : STNode),
    isBST st = true → isBST (ks.foldl SymbolTableBST.insert st) = true := by
  intro ks
  induction ks with
  | nil => intro st h; exact h
  | cons k ks ih =>
    intro st h
    simp only [List.foldl_cons]
    exact ih _ (SymbolTableBST.isBST_insert h)

/-!
## Claim theorems
-/

/-- C1 (counterexample): on `"b a b"` the analysis succeeds with
`symbol_table_entries = ["a","b"]` and PIF `[(0,0),(0,0),(0,1)]`; the first
PIF entry has kind 0 and index 0, but `symbol_table_entries[0] = "a"` is
not the lexeme `"b"` at that token position — the index was taken from the
table's state at scan time, not from its final state. -/
theorem spec_C1_counterexample :
    analyze "b a b" = Except.ok (["a", "b"], [(0, 0), (0, 0), (0, 1)]) ∧
    pyTokens "b a b" = ["b", "a", "b"] ∧
    ["a", "b"].getD 0 "" ≠ ["b", "a", "b"].getD 0 "" :=
  ⟨rfl, rfl, by decide⟩

/-- C1 (amended): in a successful analysis every PIF entry of kind 0 or 1
has an index with `0 ≤ index < len(symbol_table_entries)` — the index is
the lexeme's rank in the table's state at the moment that token was
processed, not necessarily in the final state — and every entry of any
other kind has index `-1`. -/
theorem spec_C1_amended (source : String) (st : STNode) (pif : List (Int × Int))
    (h : lexical_analyze source = Except.ok (st, pif)) :
    ∀ k i : Int, (k, i) ∈ pif →
      ((k = 0 ∨ k = 1) → 0 ≤ i ∧ i < ((SymbolTableBST.inorder_list st).length : Int)) ∧
      (¬(k = 0 ∨ k = 1) → i = -1) := by
  intro k i hmem
  simp only [lexical_analyze] at h
  exact analyzeLoop_entries _ _ _ _ _ h (by intro e he; simp at he) (k, i) hmem

/-- C1 (witness): the amended theorem applied to the source `"a"`. -/
theorem spec_C1_witness :
    (((0 : Int) = 0 ∨ (0 : Int) = 1) → 0 ≤ (0 : Int) ∧ (0 : Int) <
      ((SymbolTableBST.inorder_list (STNode.node STNode.nil "a" STNode.nil)).length : Int)) ∧
    (¬((0 : Int) = 0 ∨ (0 : Int) = 1) → (0 : Int) = -1) :=
  spec_C1_amended "a" (STNode.node STNode.nil "a" STNode.nil) [(0, 0)] rfl 0 0
    (by simp)

/-- C2 (counterexample): on `"int a ; a = 5 ;"` the analyzer does NOT
return the PIF claimed by the spec (which has `(0,1)` for both occurrences
of `a`): the actual indices for `a` are 0, the table's rank at the moment
the tokens were processed. -/
theorem spec_C2_counterexample :
    analyze "int a ; a = 5 ;" ≠ Except.ok (["5", "a"],
      [(2, -1), (0, 1), (16, -1), (0, 1), (30, -1), (1, 0), (16, -1)]) := by
  intro h
  have hok : analyze "int a ; a = 5 ;" = Except.ok (["5", "a"],
      [(2, -1), (0, 0), (16, -1), (0, 0), (30, -1), (1, 0), (16, -1)]) := rfl
  rw [hok] at h
  exact absurd (Except.ok.inj h) (by decide)

/-- C2 (amended): on `"int a ; a = 5 ;"` the analysis succeeds with symbol
table `["5", "a"]` and PIF `[(2,-1), (0,0), (16,-1), (0,0), (30,-1),
(1,0), (16,-1)]`: both occurrences of `a` get index 0 because at the
moment they were processed the table held only `"a"`. -/
theorem spec_C2_amended :
    analyze "int a ; a = 5 ;" = Except.ok (["5", "a"],
      [(2, -1), (0, 0), (16, -1), (0, 0), (30, -1), (1, 0), (16, -1)]) := rfl

/-- C3 (counterexample): on `"if ( a == b ) { cout << a ; }"` the analysis
does not abort — it succeeds, because `<` is itself a catalog entry. -/
theorem spec_C3_counterexample :
    (analyze "if ( a == b ) { cout << a ; }").isOk = true := rfl

/-- C3 (amended): the scanner emits each `<` of `<<` as a standalone
one-character lexeme, but `<` is in the catalog with code 28, so both
classify successfully and the analysis succeeds: the two `<` tokens appear
as consecutive `(28, -1)` entries in the PIF. -/
theorem spec_C3_amended :
    analyze "if ( a == b ) { cout << a ; }" = Except.ok (["a", "b"],
      [(10, -1), (21, -1), (0, 0), (31, -1), (0, 1), (22, -1), (25, -1), (13, -1),
       (28, -1), (28, -1), (0, 0), (16, -1), (26, -1)]) := rfl

/-- C4 (counterexample): the failure does not surface the position of the
offending lexeme — `analyze "@"` and `analyze "; @"` raise the very same
error value `ValueError("Invalid token: @")` although the offending `@`
sits at different positions. -/
theorem spec_C4_counterexample :
    analyze "@" = Except.error "Invalid token: @" ∧
    analyze "; @" = Except.error "Invalid token: @" ∧
    analyze "@" = analyze "; @" :=
  ⟨rfl, rfl, rfl⟩

/-- C4 (amended): `analyze` fails exactly when some non-whitespace raw
lexeme equals no catalog entry and matches none of the identifier /
integer / character-literal / string-literal patterns; the FIRST such
lexeme aborts the whole analysis with an error carrying the offending
lexeme (but not its position), and no partial symbol table or PIF is
returned. -/
theorem spec_C4_amended (source : String) :
    match (pyTokens source).find? isInvalidTok with
    | some t => analyze source = Except.error ("Invalid token: " ++ t)
    | none => ∃ entries pif, analyze source = Except.ok (entries, pif) := by
  cases hf : (pyTokens source).find? isInvalidTok with
  | some t =>
    have herr := analyzeLoop_error_of_find (pyTokens source) STNode.nil [] t hf
    simp only [analyze, lexical_analyze, herr]
  | none =>
    obtain ⟨⟨st, pif⟩, hr⟩ := analyzeLoop_ok_of_none (pyTokens source) STNode.nil [] hf
    exact ⟨SymbolTableBST.inorder_list st, pif, by simp only [analyze, lexical_analyze, hr]⟩

/-- C5 (counterexample): on `"z a z"` the two occurrences of the lexeme
`"z"` (token positions 0 and 2) get DIFFERENT indices in the PIF (0 and
1): the index is the rank at processing time and a later insertion of the
lexicographically smaller `"a"` shifted `"z"`'s rank. -/
theorem spec_C5_counterexample :
    analyze "z a z" = Except.ok (["a", "z"], [(0, 0), (0, 0), (0, 1)]) ∧
    pyTokens "z a z" = ["z", "a", "z"] ∧
    ([(0, 0), (0, 0), (0, 1)] : List (Int × Int)).getD 0 (0, 0) ≠
      ([(0, 0), (0, 0), (0, 1)] : List (Int × Int)).getD 2 (0, 0) :=
  ⟨rfl, rfl, by decide⟩

/-- C5 (amended): for every identifier/constant lexeme of an accepted
source, the final symbol table contains exactly one entry for it and
re-inserting it returns the table unchanged (idempotent, nothing
created); each of its PIF entries carries the lexeme's rank at the moment
of that occurrence, which can differ between occurrences. -/
theorem spec_C5_amended (source : String) (st : STNode) (pif : List (Int × Int))
    (h : lexical_analyze source = Except.ok (st, pif)) :
    ∀ t ∈ pyTokens source, ∀ v : String, (classify t).2 = some v →
      (SymbolTableBST.inorder_list st).count v = 1 ∧
      SymbolTableBST.insert st v = st := by
  intro t ht v hv
  simp only [lexical_analyze] at h
  have hfind : SymbolTableBST.find st v = true :=
    analyzeLoop_inserted _ _ _ _ _ h t ht v hv
  have hmem : v ∈ SymbolTableBST.inorder_list st :=
    SymbolTableBST.mem_inorder_of_find _ _ hfind
  have hbst : isBST st = true := analyzeLoop_isBST _ _ _ _ _ h rfl
  have hnd : (SymbolTableBST.inorder_list st).Nodup :=
    SymbolTableBST.nodup_of_pairwise (SymbolTableBST.isBST_pairwise hbst)
  exact ⟨List.count_eq_one_of_mem hnd hmem, SymbolTableBST.insert_of_find _ _ hfind⟩

/-- C5 (witness): the amended theorem applied to the source `"a"`. -/
theorem spec_C5_witness :
    (SymbolTableBST.inorder_list (STNode.node STNode.nil "a" STNode.nil)).count "a" = 1 ∧
    SymbolTableBST.insert (STNode.node STNode.nil "a" STNode.nil) "a" =
      STNode.node STNode.nil "a" STNode.nil :=
  spec_C5_amended "a" (STNode.node STNode.nil "a" STNode.nil) [(0, 0)] rfl "a"
    (by rw [show pyTokens "a" = ["a"] from rfl]; exact List.mem_singleton.mpr rfl) "a" rfl

/-- C6 (confirmed): after any sequence of inserts into an initially empty
table, the BST invariant holds (left keys compare less, right keys
greater, under the Python string order `lexLt`), and the in-order key
list is strictly ascending with no duplicates. -/
theorem spec_C6 (ks : List String) :
    isBST (ks.foldl SymbolTableBST.insert STNode.nil) = true ∧
    (SymbolTableBST.inorder_list (ks.foldl SymbolTableBST.insert STNode.nil)).Pairwise
      (fun a b => lexLt a b = true) ∧
    (SymbolTableBST.inorder_list (ks.foldl SymbolTableBST.insert STNode.nil)).Nodup := by
  have hb : isBST (ks.foldl SymbolTableBST.insert STNode.nil) = true :=
    foldl_insert_isBST ks STNode.nil rfl
  have hp := SymbolTableBST.isBST_pairwise hb
  exact ⟨hb, hp, SymbolTableBST.nodup_of_pairwise hp⟩

/-- C7 (confirmed): the analysis is a pure, deterministic function of its
input — running it twice on the same source text yields identical symbol
tables, PIFs and failure outcomes. -/
theorem spec_C7 (T : String) :
    analyze T = analyze T ∧ lexical_analyze T = lexical_analyze T :=
  ⟨rfl, rfl⟩

/-- C8 (confirmed): on success, the PIF has exactly one entry per
non-whitespace raw lexeme of the source. -/
theorem spec_C8 (source : String) (st : STNode) (pif : List (Int × Int))
    (h : lexical_analyze source = Except.ok (st, pif)) :
    pif.length = (pyTokens source).length := by
  simp only [lexical_analyze] at h
  simpa using analyzeLoop_length _ _ _ _ _ h

/-- C8 (witness): the theorem applied to the source `"a"`. -/
theorem spec_C8_witness :
    ([((0 : Int), (0 : Int))]).length = (pyTokens "a").length :=
  spec_C8 "a" (STNode.node STNode.nil "a" STNode.nil) [(0, 0)] rfl

/-- C9 (confirmed): the empty source and every all-whitespace source are
accepted, with an empty symbol table and an empty PIF. -/
theorem spec_C9 :
    analyze "" = Except.ok ([], []) ∧
    ∀ s : String, (∀ c ∈ s.toList, pyIsSpace c = true) →
      analyze s = Except.ok ([], []) := by
  constructor
  · rfl
  · intro s hs
    have hpt : pyTokens s = [] := pyTokens_all_space hs
    simp only [analyze, lexical_analyze, hpt, analyzeLoop, SymbolTableBST.inorder_list]

/-- C9 (witness): the theorem applied to the one-space source `" "`. -/
theorem spec_C9_witness : analyze " " = Except.ok ([], []) :=
  spec_C9.2 " " (by decide)

/-- C10 (confirmed): the lexemes `identifier` and `constant` are not
reserved words — `classify` maps each to kind 0 with itself as value, and
they are inserted into the symbol table like ordinary identifiers. -/
theorem spec_C10 :
    classify "identifier" = (0, some "identifier") ∧
    classify "constant" = (0, some "constant") ∧
    is_identifier "identifier" = true ∧
    is_identifier "constant" = true ∧
    analyze "identifier constant" =
      Except.ok (["constant", "identifier"], [(0, 0), (0, 0)]) :=
  ⟨rfl, rfl, rfl, rfl, rfl⟩
